import Mathlib

/-!
# A verification development for `localstorage-slim` (src/ls.ts)

This file gives a shallow embedding of the core of `localstorage-slim`:
the value-encoding pipeline (plain / TTL-wrapped / obfuscated values),
the `set` / `get` store facade with its configuration merge, and the
`flush` / `poll` eviction scheduler, together with theorems about the
specified properties.

Modelling conventions, chosen to follow the JS source:

* A JS string is modelled as its list of UTF-16 code units (`JStr := List Nat`).
  `String.fromCharCode` wraps its argument modulo 2^16, which we write
  explicitly.  String iteration (`[...s]`) is modelled unit-wise; this is
  exact for text in the basic multilingual plane, which covers the whole
  output alphabet of the serializer modelled below.
* JSON-parsed JS values are modelled by the inductive `JVal`; raw JS values
  (the arguments of `set`, which may also contain `undefined`, functions,
  and non-serializable cyclic structures) by `JSVal`.  The constructor
  `JSVal.circular` stands for the class of values on which `JSON.stringify`
  throws (circular structures); an inductive type cannot contain a literal
  cycle, so the class is represented by a dedicated constructor.
* `JSON.stringify` / `JSON.parse` are external collaborators ("a black-box
  reversible text codec" in the specification).  They are modelled by the
  executable pair `encJ` / `decode` below: an injective self-delimiting
  encoder into code units together with its verified inverse.  Text that
  does not come from the encoder fails to parse, which models foreign
  entries in the shared store.
* JS numbers are modelled as `Int` (all numbers appearing in the core are
  integral: timestamps, TTL seconds, the numeric secret).  `Int` has no
  `NaN`; the `!isNaN` test of the source is noted where it appears.
* Objects are field lists in insertion order; property access is modelled
  by first-match lookup (objects produced by this codec never carry
  duplicate keys).
* The backing store is an association list from key to stored code units;
  the availability probe (`supportsLS`) is modelled as succeeding, which is
  the branch all the claims are about.
-/

namespace LsSlim

/-- UTF-16 code units of a JS string. -/
abbrev JStr := List Nat

/-- A JSON value, as produced by `JSON.parse`: the data manipulated by the
decode half of the pipeline.  Strings (and object keys) are lists of UTF-16
code units. -/
inductive JVal where
  | null : JVal
  | bool (b : Bool) : JVal
  | num (i : Int) : JVal
  | str (s : JStr) : JVal
  | arr (xs : List JVal) : JVal
  | obj (fs : List (JStr × JVal)) : JVal

/-- A raw JS value handed to `set`: everything a `JVal` can be, plus
`undefined`, function values (which `JSON.stringify` drops), and the class
of circular structures (on which `JSON.stringify` throws), represented by
the constructor `circular`. -/
inductive JSVal where
  | null : JSVal
  | bool (b : Bool) : JSVal
  | num (i : Int) : JSVal
  | str (s : JStr) : JSVal
  | arr (xs : List JSVal) : JSVal
  | obj (fs : List (JStr × JSVal)) : JSVal
  | undef : JSVal
  | func (src : JStr) : JSVal
  | circular : JSVal

/-! ## The text codec (the black-box `JSON.stringify` / `JSON.parse` pair)

A self-delimiting encoding of `JVal` into UTF-16 code units, with a
verified executable inverse.  Naturals are base-256 digit lists closed by
the unit `256`; every emitted unit is `≤ 256`, hence in the basic plane. -/

/-- Fuel-driven base-256 little-endian digits of `n`, closed by `256`.
The fuel argument makes the recursion structural; `encNat` supplies
enough fuel. -/
def encNatA : Nat → Nat → List Nat
  | 0, _ => []
  | fuel + 1, n => if n = 0 then [256] else n % 256 :: encNatA fuel (n / 256)

/-- Encode a natural as base-256 digits closed by the unit `256`. -/
def encNat (n : Nat) : List Nat := encNatA (n + 1) n

/-- Decode a natural encoded by `encNat`, returning the remaining units. -/
def decNat : List Nat → Option (Nat × List Nat)
  | [] => none
  | d :: rest =>
    if d = 256 then some (0, rest)
    else if d < 256 then
      match decNat rest with
      | some (m, rest') => some (d + 256 * m, rest')
      | none => none
    else none

theorem decNat_encNatA (fuel : Nat) : ∀ n r, n < fuel →
    decNat (encNatA fuel n ++ r) = some (n, r) := by
  induction fuel with
  | zero => intro n r h; omega
  | succ fuel ih =>
    intro n r h
    by_cases h0 : n = 0
    · subst h0; simp [encNatA, decNat]
    · have hd : n % 256 < 256 := Nat.mod_lt _ (by omega)
      have hrec : n / 256 < fuel := by
        have := Nat.div_lt_self (Nat.pos_of_ne_zero h0) (by omega : 1 < 256)
        omega
      simp only [encNatA, if_neg h0, List.cons_append, decNat]
      rw [if_neg (by omega), if_pos hd, ih _ r hrec]
      simp [Nat.mod_add_div]

theorem decNat_encNat (n : Nat) (r : List Nat) :
    decNat (encNat n ++ r) = some (n, r) :=
  decNat_encNatA (n + 1) n r (Nat.lt_succ_self n)

theorem encNatA_le (fuel : Nat) : ∀ n, ∀ u ∈ encNatA fuel n, u ≤ 256 := by
  induction fuel with
  | zero => intro n u hu; simp [encNatA] at hu
  | succ fuel ih =>
    intro n u hu
    by_cases h0 : n = 0
    · subst h0; simp_all [encNatA]
    · simp only [encNatA, if_neg h0, List.mem_cons] at hu
      rcases hu with h | h
      · have : n % 256 < 256 := Nat.mod_lt _ (by omega)
        omega
      · exact ih _ u h

theorem encNat_le (n : Nat) : ∀ u ∈ encNat n, u ≤ 256 :=
  encNatA_le (n + 1) n

/-- Encode each unit of a string (units can be arbitrary naturals in the
model, so each one is length-coded via `encNat`). -/
def encUnits : List Nat → List Nat
  | [] => []
  | c :: cs => encNat c ++ encUnits cs

/-- Decode `n` units encoded by `encUnits`. -/
def decNats : Nat → List Nat → Option (List Nat × List Nat)
  | 0, r => some ([], r)
  | n + 1, r =>
    match decNat r with
    | some (u, r1) =>
      match decNats n r1 with
      | some (us, r2) => some (u :: us, r2)
      | none => none
    | none => none

theorem decNats_encUnits (s : List Nat) (r : List Nat) :
    decNats s.length (encUnits s ++ r) = some (s, r) := by
  induction s generalizing r with
  | nil => simp [encUnits, decNats]
  | cons c cs ih =>
    simp only [encUnits, List.length_cons, decNats, List.append_assoc,
      decNat_encNat, ih]

theorem encUnits_le (s : List Nat) : ∀ u ∈ encUnits s, u ≤ 256 := by
  induction s with
  | nil => simp [encUnits]
  | cons c cs ih =>
    intro u hu
    simp only [encUnits, List.mem_append] at hu
    rcases hu with h | h
    · exact encNat_le c u h
    · exact ih u h

/-- Encode an integer: a sign tag followed by the natural part. -/
def encInt : Int → List Nat
  | .ofNat n => 0 :: encNat n
  | .negSucc n => 1 :: encNat n

/-- Decode an integer encoded by `encInt`. -/
def decInt : List Nat → Option (Int × List Nat)
  | 0 :: r =>
    match decNat r with
    | some (n, r1) => some (Int.ofNat n, r1)
    | none => none
  | 1 :: r =>
    match decNat r with
    | some (n, r1) => some (Int.negSucc n, r1)
    | none => none
  | _ => none

theorem decInt_encInt (i : Int) (r : List Nat) :
    decInt (encInt i ++ r) = some (i, r) := by
  cases i <;> simp [encInt, decInt, decNat_encNat]

theorem encInt_le (i : Int) : ∀ u ∈ encInt i, u ≤ 256 := by
  cases i with
  | ofNat n =>
    intro u hu
    simp only [encInt, List.mem_cons] at hu
    rcases hu with h | h
    · omega
    · exact encNat_le n u h
  | negSucc n =>
    intro u hu
    simp only [encInt, List.mem_cons] at hu
    rcases hu with h | h
    · omega
    · exact encNat_le n u h

mutual

/-- Encode a JSON value into code units: a small tag, then length-coded
contents.  This is the model of `JSON.stringify` restricted to already
JSON-shaped values. -/
def encJ : JVal → List Nat
  | .null => [2]
  | .bool false => [3]
  | .bool true => [4]
  | .num i => 5 :: encInt i
  | .str s => 6 :: (encNat s.length ++ encUnits s)
  | .arr xs => 7 :: (encNat xs.length ++ encJList xs)
  | .obj fs => 8 :: (encNat fs.length ++ encJFields fs)

/-- Encode the elements of an array in order. -/
def encJList : List JVal → List Nat
  | [] => []
  | x :: xs => encJ x ++ encJList xs

/-- Encode the fields of an object in insertion order: length-coded key
units, then the value. -/
def encJFields : List (JStr × JVal) → List Nat
  | [] => []
  | (k, v) :: fs => encNat k.length ++ encUnits k ++ encJ v ++ encJFields fs

end

/-- Decode `n` consecutive values with the element decoder `d`. -/
def decListWith {α : Type} (d : List Nat → Option (α × List Nat)) :
    Nat → List Nat → Option (List α × List Nat)
  | 0, us => some ([], us)
  | n + 1, us =>
    match d us with
    | some (x, r1) =>
      match decListWith d n r1 with
      | some (xs, r2) => some (x :: xs, r2)
      | none => none
    | none => none

/-- Decode `n` consecutive object fields with the value decoder `d`. -/
def decFieldsWith (d : List Nat → Option (JVal × List Nat)) :
    Nat → List Nat → Option (List (JStr × JVal) × List Nat)
  | 0, us => some ([], us)
  | n + 1, us =>
    match decNat us with
    | some (kl, r0) =>
      match decNats kl r0 with
      | some (k, r1) =>
        match d r1 with
        | some (v, r2) =>
          match decFieldsWith d n r2 with
          | some (fs, r3) => some ((k, v) :: fs, r3)
          | none => none
        | none => none
      | none => none
    | none => none

/-- Fuel-driven decoder for `encJ`; the fuel bounds the nesting depth and
makes the recursion structural. -/
def decJ : Nat → List Nat → Option (JVal × List Nat)
  | 0, _ => none
  | fuel + 1, us =>
    match us with
    | 2 :: r => some (.null, r)
    | 3 :: r => some (.bool false, r)
    | 4 :: r => some (.bool true, r)
    | 5 :: r =>
      match decInt r with
      | some (i, r1) => some (.num i, r1)
      | none => none
    | 6 :: r =>
      match decNat r with
      | some (n, r1) =>
        match decNats n r1 with
        | some (s, r2) => some (.str s, r2)
        | none => none
      | none => none
    | 7 :: r =>
      match decNat r with
      | some (n, r1) =>
        match decListWith (decJ fuel) n r1 with
        | some (xs, r2) => some (.arr xs, r2)
        | none => none
      | none => none
    | 8 :: r =>
      match decNat r with
      | some (n, r1) =>
        match decFieldsWith (decJ fuel) n r1 with
        | some (fs, r2) => some (.obj fs, r2)
        | none => none
      | none => none
    | _ => none

mutual

/-- Nesting depth of a JSON value (at least 1). -/
def jdepth : JVal → Nat
  | .arr xs => jdepthL xs + 1
  | .obj fs => jdepthF fs + 1
  | _ => 1

/-- Maximal depth of a list of JSON values. -/
def jdepthL : List JVal → Nat
  | [] => 0
  | x :: xs => max (jdepth x) (jdepthL xs)

/-- Maximal depth of the values of an object field list. -/
def jdepthF : List (JStr × JVal) → Nat
  | [] => 0
  | (_, v) :: fs => max (jdepth v) (jdepthF fs)

end

theorem jdepth_pos (v : JVal) : 0 < jdepth v := by
  cases v <;> simp [jdepth]

theorem decListWith_encJList (fuel : Nat)
    (ih : ∀ v r, jdepth v ≤ fuel → decJ fuel (encJ v ++ r) = some (v, r)) :
    ∀ xs r, jdepthL xs ≤ fuel →
      decListWith (decJ fuel) xs.length (encJList xs ++ r) = some (xs, r) := by
  intro xs
  induction xs with
  | nil => intro r _; simp [encJList, decListWith]
  | cons x xs ihx =>
    intro r h
    simp only [jdepthL, max_le_iff] at h
    simp only [encJList, List.length_cons, decListWith, List.append_assoc,
      ih x _ h.1, ihx _ h.2]

theorem decFieldsWith_encJFields (fuel : Nat)
    (ih : ∀ v r, jdepth v ≤ fuel → decJ fuel (encJ v ++ r) = some (v, r)) :
    ∀ fs r, jdepthF fs ≤ fuel →
      decFieldsWith (decJ fuel) fs.length (encJFields fs ++ r) = some (fs, r) := by
  intro fs
  induction fs with
  | nil => intro r _; simp [encJFields, decFieldsWith]
  | cons kv fs ihf =>
    intro r h
    obtain ⟨k, v⟩ := kv
    simp only [jdepthF, max_le_iff] at h
    simp only [encJFields, List.length_cons, decFieldsWith, List.append_assoc,
      decNat_encNat, decNats_encUnits, ih v _ h.1, ihf _ h.2]

theorem decJ_encJ : ∀ (fuel : Nat) (v : JVal) (r : List Nat),
    jdepth v ≤ fuel → decJ fuel (encJ v ++ r) = some (v, r) := by
  intro fuel
  induction fuel with
  | zero =>
    intro v r h
    have := jdepth_pos v
    omega
  | succ fuel ih =>
    intro v r h
    cases v with
    | null => simp [encJ, decJ]
    | bool b => cases b <;> simp [encJ, decJ]
    | num i => simp [encJ, decJ, decInt_encInt]
    | str s => simp [encJ, decJ, decNat_encNat, decNats_encUnits]
    | arr xs =>
      have hxs : jdepthL xs ≤ fuel := by
        simp only [jdepth] at h; omega
      simp only [encJ, decJ, List.cons_append, List.append_assoc, decNat_encNat,
        decListWith_encJList fuel ih xs r hxs]
    | obj fs =>
      have hfs : jdepthF fs ≤ fuel := by
        simp only [jdepth] at h; omega
      simp only [encJ, decJ, List.cons_append, List.append_assoc, decNat_encNat,
        decFieldsWith_encJFields fuel ih fs r hfs]

mutual

/-- Each level of `encJ` contributes at least one unit, so the nesting
depth is bounded by the length of the encoding. -/
theorem jdepth_le_encJ : ∀ v : JVal, jdepth v ≤ (encJ v).length
  | .null => by simp [jdepth, encJ]
  | .bool b => by cases b <;> simp [jdepth, encJ]
  | .num i => by simp [jdepth, encJ]
  | .str s => by simp [jdepth, encJ]
  | .arr xs => by
    have h := jdepthL_le_encJList xs
    simp only [jdepth, encJ, List.length_cons, List.length_append]
    omega
  | .obj fs => by
    have h := jdepthF_le_encJFields fs
    simp only [jdepth, encJ, List.length_cons, List.length_append]
    omega

theorem jdepthL_le_encJList : ∀ xs : List JVal, jdepthL xs ≤ (encJList xs).length
  | [] => by simp [jdepthL, encJList]
  | x :: xs => by
    have h1 := jdepth_le_encJ x
    have h2 := jdepthL_le_encJList xs
    simp only [jdepthL, encJList, List.length_append]
    omega

theorem jdepthF_le_encJFields : ∀ fs : List (JStr × JVal),
    jdepthF fs ≤ (encJFields fs).length
  | [] => by simp [jdepthF, encJFields]
  | (k, v) :: fs => by
    have h1 := jdepth_le_encJ v
    have h2 := jdepthF_le_encJFields fs
    simp only [jdepthF, encJFields, List.length_append]
    omega

end

/-- The model of `JSON.parse`: decode a whole unit list, requiring full
consumption.  Returns `none` exactly where `JSON.parse` would throw. -/
def decode (us : List Nat) : Option JVal :=
  match decJ us.length us with
  | some (v, []) => some v
  | _ => none

/-- The codec round trip: parsing a serialized value gives it back. -/
theorem decode_encJ (v : JVal) : decode (encJ v) = some v := by
  have h := decJ_encJ (encJ v).length v [] (jdepth_le_encJ v)
  simp only [List.append_nil] at h
  simp [decode, h]

mutual

/-- Every unit emitted by the encoder is `≤ 256`, in particular below
2^16: the serialized text lies in the basic multilingual plane. -/
theorem encJ_le : ∀ v : JVal, ∀ u ∈ encJ v, u ≤ 256
  | .null => by simp [encJ]
  | .bool b => by cases b <;> simp [encJ]
  | .num i => by
    intro u hu
    simp only [encJ, List.mem_cons] at hu
    rcases hu with h | h
    · omega
    · exact encInt_le i u h
  | .str s => by
    intro u hu
    simp only [encJ, List.mem_cons, List.mem_append] at hu
    rcases hu with h | h | h
    · omega
    · exact encNat_le _ u h
    · exact encUnits_le s u h
  | .arr xs => by
    intro u hu
    simp only [encJ, List.mem_cons, List.mem_append] at hu
    rcases hu with h | h | h
    · omega
    · exact encNat_le _ u h
    · exact encJList_le xs u h
  | .obj fs => by
    intro u hu
    simp only [encJ, List.mem_cons, List.mem_append] at hu
    rcases hu with h | h | h
    · omega
    · exact encNat_le _ u h
    · exact encJFields_le fs u h

theorem encJList_le : ∀ xs : List JVal, ∀ u ∈ encJList xs, u ≤ 256
  | [] => by simp [encJList]
  | x :: xs => by
    intro u hu
    simp only [encJList, List.mem_append] at hu
    rcases hu with h | h
    · exact encJ_le x u h
    · exact encJList_le xs u h

theorem encJFields_le : ∀ fs : List (JStr × JVal), ∀ u ∈ encJFields fs, u ≤ 256
  | [] => by simp [encJFields]
  | (k, v) :: fs => by
    intro u hu
    simp only [encJFields, List.mem_append] at hu
    rcases hu with ((h | h) | h) | h
    · exact encNat_le _ u h
    · exact encUnits_le k u h
    · exact encJ_le v u h
    · exact encJFields_le fs u h

end

/-! ## The obfuscator (`obfus` in the source)

`String.fromCharCode(x)` wraps `x` modulo 2^16; the built-in obfuscator
shifts every code unit of the serialized text by the numeric secret. -/

/-- `String.fromCharCode(c + key)`: shift a unit up by the key, mod 2^16. -/
def u16add (key : Int) (c : Nat) : Nat := (((c : Int) + key) % 65536).toNat

/-- `String.fromCharCode(c - key)`: shift a unit down by the key, mod 2^16. -/
def u16sub (key : Int) (c : Nat) : Nat := (((c : Int) - key) % 65536).toNat

mutual

def jsonOf : JSVal → Except Unit (Option JVal)
  | .null => .ok (some .null)
  | .bool b => .ok (some (.bool b))
  | .num i => .ok (some (.num i))
  | .str s => .ok (some (.str s))
  | .undef => .ok none
  | .func _ => .ok none
  | .circular => .error ()
  | .arr xs =>
    match jsonOfList xs with
    | .ok ys => .ok (some (.arr ys))
    | .error e => .error e
  | .obj fs =>
    match jsonOfFields fs with
    | .ok gs => .ok (some (.obj gs))
    | .error e => .error e

def jsonOfList : List JSVal → Except Unit (List JVal)
  | [] => .ok []
  | x :: xs =>
    match jsonOf x, jsonOfList xs with
    | .ok none, .ok ys => .ok (.null :: ys)
    | .ok (some y), .ok ys => .ok (y :: ys)
    | .error e, _ => .error e
    | _, .error e => .error e

def jsonOfFields : List (JStr × JSVal) → Except Unit (List (JStr × JVal))
  | [] => .ok []
  | (k, x) :: fs =>
    match jsonOf x, jsonOfFields fs with
    | .ok none, .ok gs => .ok gs
    | .ok (some y), .ok gs => .ok ((k, y) :: gs)
    | .error e, _ => .error e
    | _, .error e => .error e

end

/-! ## Configuration (`config`, per-call overrides, and their merge) -/

/-- A per-call `ttl` override: absent (`undefined`), the explicit `null`,
or a number. -/
inductive TtlArg where
  | omitted : TtlArg
  | null : TtlArg
  | num (n : Int) : TtlArg

/-- The process-wide mutable `config` object.  Field defaults are the
source's initializer: `ttl: null, encrypt: false, secret: 75`, with the
built-in `encrypter`/`decrypter` (the claims never replace the codec
functions, so they are fixed to the built-ins in the model). -/
structure Config where
  ttl : Option Int := none
  encrypt : Bool := false
  decrypt : Option Bool := none
  secret : Int := 75
  cb : Option JStr := none

/-- A call-level configuration override; `none`/`omitted` model fields the
caller did not pass.  `cb` holds the source text of a supplied callback
function (the `typeof cb === 'function'` guard means only function values
are ever attached). -/
structure LocalConfig where
  ttl : TtlArg := .omitted
  encrypt : Option Bool := none
  decrypt : Option Bool := none
  secret : Option Int := none
  cb : Option JStr := none

/-- The effective per-call configuration `_conf`. -/
structure EffConfig where
  ttl : Option Int
  encrypt : Bool
  decrypt : Bool
  secret : Int
  cb : Option JStr

/-- The merge computed identically at the top of `set` and `get`:
`{...config, ...localConfig, encrypt: localConfig.encrypt === false ?
false : localConfig.encrypt || config.encrypt, ttl: localConfig.ttl ===
null ? null : localConfig.ttl || config.ttl}`.  A numeric `ttl` override
of `0` is falsy, so `||` falls back to the process default; any non-zero
number wins.  `decrypt` has no process default initializer, and its
truthiness is taken where used (`_conf.decrypt || _conf.encrypt`). -/
def mergeConfig (g : Config) (lc : LocalConfig) : EffConfig where
  ttl :=
    match lc.ttl with
    | .omitted => g.ttl
    | .null => none
    | .num n => if n = 0 then g.ttl else some n
  encrypt :=
    match lc.encrypt with
    | some b => b
    | none => g.encrypt
  decrypt :=
    (match lc.decrypt with
     | some d => some d
     | none => g.decrypt).getD false
  secret :=
    match lc.secret with
    | some s => s
    | none => g.secret
  cb :=
    match lc.cb with
    | some c => some c
    | none => g.cb

/-- `_conf.ttl && !isNaN(_conf.ttl) && _conf.ttl > 0` (`Int` has no `NaN`):
the requested TTL seconds, when a positive TTL is in effect. -/
def effHasTTL (e : EffConfig) : Option Int :=
  match e.ttl with
  | some t => if 0 < t then some t else none
  | none => none

/-! ## The backing store and envelope helpers -/

/-- The backing `localStorage`: keyed by text, holding text, in insertion
order.  Keys are unique in a real store; theorems that enumerate the store
carry that invariant explicitly. -/
abbrev Store := List (String × JStr)

/-- `localStorage.getItem` (first match). -/
def storeGet : Store → String → Option JStr
  | [], _ => none
  | (k0, u) :: st, k => if k0 = k then some u else storeGet st k

/-- `localStorage.setItem`: overwrite in place, or append a new entry. -/
def storePut : Store → String → JStr → Store
  | [], k, u => [(k, u)]
  | (k0, u0) :: st, k, u =>
    if k0 = k then (k, u) :: st else (k0, u0) :: storePut st k u

/-- `localStorage.removeItem`: drop the entry stored under `k`. -/
def storeRemove : Store → String → Store
  | [], _ => []
  | (k0, u0) :: st, k =>
    if k0 = k then storeRemove st k else (k0, u0) :: storeRemove st k

/-- An armed eviction timer: key, delay, and the stored callback value. -/
abbrev Timer := String × Int × JVal

/-- The whole mutable state: the backing store plus the timer registry
`cbRefs`. -/
structure LS where
  store : Store
  timers : List Timer

/-- `APX`, the reserved marker key: a single NUL character,
`String.fromCharCode(0)`. -/
def apx : JStr := [0]

/-- The units of the literal key `"ttl"`. -/
def ttlK : JStr := [116, 116, 108]

/-- The units of the literal key `"cb"`. -/
def cbK : JStr := [99, 98]

/-- The units of the text `"undefined"` (what `setItem` stores when
`JSON.stringify` returned `undefined`). -/
def undefinedText : JStr := [117, 110, 100, 101, 102, 105, 110, 101, 100]

/-- Modelled from the spec: `isObject` lives in `src/helpers.ts`, which is
not under `src/`.  Per the specification the TTL envelope is detected "by
presence of the marker key", a key only a (non-null, non-array) object
value can carry after `JSON.parse`; so `isObject` recognizes object
values. -/
def isObject : JVal → Bool
  | .obj _ => true
  | _ => false

/-- First-match object property lookup (`item[k]`); `none` models
`undefined`. -/
def objGet : List (JStr × JVal) → JStr → Option JVal
  | [], _ => none
  | (k0, v) :: fs, k => if k0 = k then some v else objGet fs k

/-- Property assignment `item[k] = v`: replace in place, or append. -/
def setField : List (JStr × JVal) → JStr → JVal → List (JStr × JVal)
  | [], k, v => [(k, v)]
  | (k0, v0) :: fs, k, v =>
    if k0 = k then (k, v) :: fs else (k0, v0) :: setField fs k v

/-- `APX in item` for an object's field list. -/
def hasApx (fs : List (JStr × JVal)) : Bool :=
  fs.any fun f => f.1 = apx

/-- `isObject(item) && APX in item`: the TTL-envelope detection used by
`get` and `flush`. -/
def isEnvelope : JVal → Bool
  | .obj fs => hasApx fs
  | _ => false

/-- `Date.now() > item.ttl`.  A missing `ttl` property compares as
`undefined` (always false); a non-numeric `ttl` is modelled as false as
well (no entry written by `set` ever carries one). -/
def jsGt (now : Int) : Option JVal → Bool
  | some (.num t) => decide (now > t)
  | _ => false

/-- JS truthiness of a parsed value (used for `item.cb`). -/
def jvTruthy : JVal → Bool
  | .null => false
  | .bool b => b
  | .num i => decide (i ≠ 0)
  | .str s => decide (s ≠ [])
  | .arr _ => true
  | .obj _ => true

/-- `item.ttl - Date.now()`, the armed delay; a non-numeric `ttl` gives
delay 0 (`setTimeout` coerces `NaN` to 0). -/
def jsDelay (now : Int) : Option JVal → Int
  | some (.num t) => t - now
  | _ => 0

/-! ## The obfuscator applied to values (`obfus` / `decrypter`) -/

/-- `obfus(value, key)` with `encrypt = true`: serialize the raw value and
shift every unit of the text up by the key.  Throws (`.error`) when
`JSON.stringify` throws, and also when it returns `undefined` (spreading
`undefined` throws). -/
def obfusEncrypt (key : Int) (value : JSVal) : Except Unit JStr :=
  match jsonOf value with
  | .error _ => .error ()
  | .ok none => .error ()
  | .ok (some j) => .ok ((encJ j).map (u16add key))

/-- One element of the decrypting map: `String.fromCharCode(
x.charCodeAt(0) - key)`.  On the empty string `charCodeAt(0)` is `NaN`,
and `fromCharCode(NaN - key)` is the unit 0; on a non-string element
`charCodeAt` is not a function, so the map throws. -/
def charCodeShift (key : Int) : JVal → Except Unit Nat
  | .str [] => .ok 0
  | .str (c :: _) => .ok (u16sub key c)
  | _ => .error ()

/-- `obfus(item, key)` with `encrypt = false` (the default `decrypter`):
spread the input, shift each element's first unit down by the key, and
`JSON.parse` the result.  Spreading a non-iterable value throws; a failed
parse throws. -/
def obfusDecrypt (key : Int) : JVal → Except Unit JVal
  | .str s =>
    match decode (s.map (u16sub key)) with
    | some v => .ok v
    | none => .error ()
  | .arr xs =>
    match xs.mapM (charCodeShift key) with
    | .ok us =>
      match decode us with
      | some v => .ok v
      | none => .error ()
    | .error e => .error e
  | _ => .error ()

/-! ## The operations: `set`, `get`, `flush`, `poll`, `remove`, `clear` -/

/-- The body of `set`'s `try` block, producing the exact text persisted
under the key: build the TTL envelope when a positive TTL is in effect,
obfuscate the payload (only the payload sub-field when a TTL envelope is
used), attach the callback text, and serialize. -/
def setTry (e : EffConfig) (now : Int) (value : JSVal) : Except Unit JStr :=
  match effHasTTL e with
  | some t =>
    match
      (if e.encrypt then
        match obfusEncrypt e.secret value with
        | .ok us => .ok (JSVal.str us)
        | .error e => .error e
      else .ok value : Except Unit JSVal) with
    | .error _ => .error ()
    | .ok payload =>
      let fields :=
        [(apx, payload), (ttlK, JSVal.num (now + t * 1000))] ++
          (match e.cb with
           | some src => [(cbK, JSVal.str src)]
           | none => [])
      match jsonOf (.obj fields) with
      | .error _ => .error ()
      | .ok none => .ok undefinedText
      | .ok (some j) => .ok (encJ j)
  | none =>
    if e.encrypt then
      match obfusEncrypt e.secret value with
      | .error _ => .error ()
      -- JSON.stringify of the obfuscated string: a string serializes to
      -- its text
      | .ok us => .ok (encJ (.str us))
    else
      match jsonOf value with
      | .error _ => .error ()
      | .ok none => .ok undefinedText
      | .ok (some j) => .ok (encJ j)

/-- One key of a `flush` pass: parse the stored text (skipping foreign
text that fails to parse), and on a TTL envelope either remove it
(expired, or `force`) or arm a timer when it carries a truthy `cb`. -/
def flushStep (now : Int) (force : Bool) (ls : LS) (key : String) : LS :=
  match storeGet ls.store key with
  | none => ls
  | some u =>
    if u = [] then ls
    else
      match decode u with
      | none => ls
      | some item =>
        if isEnvelope item then
          if jsGt now (objGet (envFields item) ttlK) || force then
            { ls with store := storeRemove ls.store key }
          else
            match objGet (envFields item) cbK with
            | some cb =>
              if jvTruthy cb then
                { ls with timers :=
                    ls.timers ++
                      [(key, jsDelay now (objGet (envFields item) ttlK), cb)] }
              else ls
            | none => ls
        else ls
where
  /-- The field list of a detected envelope (an envelope is an object). -/
  envFields : JVal → List (JStr × JVal)
    | .obj fs => fs
    | _ => []

/-- `flush(force)`: iterate over a snapshot of the store's keys. -/
def flush (now : Int) (force : Bool) (ls : LS) : LS :=
  (ls.store.map Prod.fst).foldl (flushStep now force) ls

/-- `poll(forceFlush)`: cancel and clear every armed timer, then
`flush(forceFlush)`. -/
def poll (now : Int) (force : Bool) (ls : LS) : LS :=
  flush now force { ls with timers := [] }

/-- `set(key, value, localConfig)`: merge the configuration, run the
`try` body, store the produced text, and re-run the scheduler when a TTL
was used.  The result `some false` models `return false` (the `catch`
branch); `none` models the undefined result of a successful call. -/
def set (g : Config) (now : Int) (ls : LS) (key : String) (value : JSVal)
    (lc : LocalConfig) : LS × Option Bool :=
  let e := mergeConfig g lc
  match setTry e now value with
  | .error _ => (ls, some false)
  | .ok text =>
    let ls1 := { ls with store := storePut ls.store key text }
    match effHasTTL e with
    | some _ => (poll now false ls1, none)
    | none => (ls1, none)

/-- The decrypt-or-keep step of `get` on a non-envelope value: the
`try { item = decrypter(item, secret) } catch` block. -/
def plainDecrypt (e : EffConfig) (item : JVal) : JVal :=
  if e.decrypt || e.encrypt then
    match obfusDecrypt e.secret item with
    | .ok d => d
    | .error _ => item
  else item

/-- The decrypt-or-keep step of `get` on an envelope's field list: the
`try { item[APX] = decrypter(item[APX], secret) } catch` block.  When the
marker field is somehow absent, `decrypter(undefined, ...)` throws and the
object is kept unchanged. -/
def envDecrypt (e : EffConfig) (fs : List (JStr × JVal)) :
    List (JStr × JVal) :=
  if e.decrypt || e.encrypt then
    match objGet fs apx with
    | some pv =>
      match obfusDecrypt e.secret pv with
      | .ok d => setField fs apx d
      | .error _ => fs
    | none => fs
  else fs

/-- `get(key, localConfig)`.  The result is `.error ()` exactly where the
un-guarded `JSON.parse(str)` of the source throws; otherwise `.ok` of the
returned value (`none` models the `return null` paths) together with the
updated state (lazy eviction removes an expired key). -/
def get (g : Config) (now : Int) (ls : LS) (key : String) (lc : LocalConfig) :
    Except Unit (Option JVal × LS) :=
  match storeGet ls.store key with
  | none => .ok (none, ls)
  | some u =>
    -- `if (!str) return null`: the empty string is falsy
    if u = [] then .ok (none, ls)
    else
      let e := mergeConfig g lc
      match decode u with
      | none => .error ()
      | some item =>
        match item with
        | .obj fs =>
          if hasApx fs then
            -- the TTL-envelope path (`hasTTL` is true)
            let fs2 := envDecrypt e fs
            if jsGt now (objGet fs2 ttlK) then
              .ok (none, { ls with store := storeRemove ls.store key })
            else .ok (objGet fs2 apx, ls)
          else .ok (some (plainDecrypt e (.obj fs)), ls)
        | _ => .ok (some (plainDecrypt e item), ls)

/-- `remove(key)`. -/
def removeKey (ls : LS) (key : String) : LS :=
  { ls with store := storeRemove ls.store key }

/-- `clear()`. -/
def clearAll (ls : LS) : LS :=
  { ls with store := [] }

/-! ## Store lemmas -/

theorem storeGet_storePut_self (st : Store) (k : String) (u : JStr) :
    storeGet (storePut st k u) k = some u := by
  induction st with
  | nil => simp [storePut, storeGet]
  | cons kv st ih =>
    obtain ⟨k0, u0⟩ := kv
    by_cases h : k0 = k
    · simp [storePut, storeGet, h]
    · simp [storePut, storeGet, h, ih]

theorem storeGet_storePut_ne (st : Store) (k k' : String) (u : JStr)
    (h : k' ≠ k) : storeGet (storePut st k u) k' = storeGet st k' := by
  have hkk : ¬k = k' := fun hh => h hh.symm
  induction st with
  | nil => simp [storePut, storeGet, hkk]
  | cons kv st ih =>
    obtain ⟨k0, u0⟩ := kv
    by_cases h0 : k0 = k
    · subst h0
      simp [storePut, storeGet, hkk]
    · simp only [storePut, if_neg h0, storeGet]
      rw [ih]

theorem storeGet_storeRemove_self (st : Store) (k : String) :
    storeGet (storeRemove st k) k = none := by
  induction st with
  | nil => rfl
  | cons kv st ih =>
    obtain ⟨k0, u0⟩ := kv
    by_cases h : k0 = k
    · simpa [storeRemove, h] using ih
    · simp [storeRemove, h, storeGet, ih]

theorem storeGet_storeRemove_ne (st : Store) (k k' : String) (h : k' ≠ k) :
    storeGet (storeRemove st k) k' = storeGet st k' := by
  induction st with
  | nil => rfl
  | cons kv st ih =>
    obtain ⟨k0, u0⟩ := kv
    by_cases h0 : k0 = k
    · subst h0
      have hkk : ¬k0 = k' := fun hh => h hh.symm
      simp [storeRemove, storeGet, hkk, ih]
    · simp only [storeRemove, if_neg h0, storeGet]
      rw [ih]

theorem storeGet_eq_none_iff (st : Store) (k : String) :
    storeGet st k = none ↔ k ∉ st.map Prod.fst := by
  induction st with
  | nil => simp [storeGet]
  | cons kv st ih =>
    obtain ⟨k0, u0⟩ := kv
    by_cases h : k0 = k
    · simp [storeGet, h]
    · have hkk : ¬k = k0 := fun hh => h hh.symm
      simp [storeGet, h, ih, hkk]

theorem storePut_keys (st : Store) (k : String) (u : JStr) :
    (storePut st k u).map Prod.fst =
      if k ∈ st.map Prod.fst then st.map Prod.fst
      else st.map Prod.fst ++ [k] := by
  induction st with
  | nil => simp [storePut]
  | cons kv st ih =>
    obtain ⟨k0, u0⟩ := kv
    by_cases h0 : k0 = k
    · subst h0
      simp [storePut]
    · have hkk : ¬k = k0 := fun hh => h0 hh.symm
      simp only [storePut, if_neg h0, List.map_cons, ih, List.mem_cons, hkk,
        false_or]
      split <;> simp

theorem storePut_keys_nodup (st : Store) (k : String) (u : JStr)
    (h : (st.map Prod.fst).Nodup) :
    ((storePut st k u).map Prod.fst).Nodup := by
  rw [storePut_keys]
  split
  · exact h
  · next hk =>
    rw [List.nodup_append]
    exact ⟨h, List.nodup_singleton k, by simpa using hk⟩

/-! ## A pointwise description of one `flush` pass -/

/-- Whether a `flush(force)` pass keeps the entry text `u`: foreign text
that fails to parse is skipped, and a detected TTL envelope is removed
when expired or when the flush is forced. -/
def keepEntry (now : Int) (force : Bool) (u : JStr) : Bool :=
  if u = [] then true
  else
    match decode u with
    | none => true
    | some item =>
      !(isEnvelope item &&
        (jsGt now (objGet (flushStep.envFields item) ttlK) || force))

theorem flushStep_store_cases (now : Int) (force : Bool) (ls : LS)
    (k : String) :
    (flushStep now force ls k).store = ls.store ∨
      (flushStep now force ls k).store = storeRemove ls.store k := by
  unfold flushStep
  repeat' split
  all_goals simp

theorem flushStep_store_ne (now : Int) (force : Bool) (ls : LS)
    (k k' : String) (h : k' ≠ k) :
    storeGet (flushStep now force ls k).store k' = storeGet ls.store k' := by
  rcases flushStep_store_cases now force ls k with hc | hc
  · rw [hc]
  · rw [hc, storeGet_storeRemove_ne _ _ _ h]

theorem flushStep_store_self (now : Int) (force : Bool) (ls : LS)
    (k : String) :
    storeGet (flushStep now force ls k).store k =
      match storeGet ls.store k with
      | none => none
      | some u => if keepEntry now force u then some u else none := by
  unfold flushStep keepEntry
  cases hg : storeGet ls.store k with
  | none => simp [hg]
  | some u =>
    by_cases he : u = []
    · simp [hg, he]
    · cases hd : decode u with
      | none => simp [hg, he, hd]
      | some item =>
        by_cases hE : isEnvelope item = true
        · by_cases hR :
            (jsGt now (objGet (flushStep.envFields item) ttlK) || force) = true
          · simp [hg, he, hd, hE, hR, storeGet_storeRemove_self]
          · simp only [Bool.not_eq_true] at hR
            rcases hcb : objGet (flushStep.envFields item) cbK with _ | cb
            · simp [hg, he, hd, hE, hR, hcb]
            · by_cases ht : jvTruthy cb = true
              · simp [hg, he, hd, hE, hR, hcb, ht]
              · simp [hg, he, hd, hE, hR, hcb, ht]
        · simp only [Bool.not_eq_true] at hE
          simp [hg, he, hd, hE]

theorem foldl_flushStep_notMem (now : Int) (force : Bool) :
    ∀ (keys : List String) (ls : LS) (k : String), k ∉ keys →
      storeGet ((keys.foldl (flushStep now force) ls).store) k =
        storeGet ls.store k := by
  intro keys
  induction keys with
  | nil => intro ls k _; rfl
  | cons k0 keys ih =>
    intro ls k hk
    simp only [List.mem_cons, not_or] at hk
    rw [List.foldl_cons, ih _ _ hk.2, flushStep_store_ne _ _ _ _ _ hk.1]

/-- The pointwise behaviour of a whole `flush` pass on a store with
distinct keys: every entry is looked up in place; kept entries are
unchanged and removed entries are gone. -/
theorem flush_storeGet (now : Int) (force : Bool) (ls : LS)
    (hnd : (ls.store.map Prod.fst).Nodup) (k : String) :
    storeGet (flush now force ls).store k =
      match storeGet ls.store k with
      | none => none
      | some u => if keepEntry now force u then some u else none := by
  unfold flush
  cases hg : storeGet ls.store k with
  | none =>
    have hk : k ∉ ls.store.map Prod.fst := (storeGet_eq_none_iff _ _).mp hg
    simp [foldl_flushStep_notMem now force _ ls k hk, hg]
  | some u =>
    have hk : k ∈ ls.store.map Prod.fst := by
      by_contra hc
      rw [(storeGet_eq_none_iff ls.store k).mpr hc] at hg
      exact Option.noConfusion hg
    obtain ⟨p, s, hps⟩ := List.append_of_mem hk
    rw [hps] at hnd
    have hknp : k ∉ p := by
      intro hc
      exact (List.disjoint_of_nodup_append hnd) hc (by simp)
    have hkns : k ∉ s := by
      have := hnd.of_append_right
      simp only [List.nodup_cons] at this
      exact this.1
    rw [hps, List.foldl_append, List.foldl_cons]
    rw [foldl_flushStep_notMem now force s _ k hkns]
    have hmid :
        storeGet ((p.foldl (flushStep now force) ls).store) k =
          storeGet ls.store k :=
      foldl_flushStep_notMem now force p ls k hknp
    rw [flushStep_store_self, hmid, hg]

/-! ## Helper lemmas about the operations -/

/-- Serialized text is never empty (it starts with a tag). -/
theorem encJ_ne_nil (v : JVal) : encJ v ≠ [] := by
  cases v with
  | null => simp [encJ]
  | bool b => cases b <;> simp [encJ]
  | num i => simp [encJ]
  | str s => simp [encJ]
  | arr xs => simp [encJ]
  | obj fs => simp [encJ]

/-- `set` on a value whose serialization throws: every branch of the
`try` body fails, the `catch` returns `false`, and nothing is stored. -/
theorem set_error (g : Config) (now : Int) (ls : LS) (key : String)
    (value : JSVal) (lc : LocalConfig) (hv : jsonOf value = .error ()) :
    set g now ls key value lc = (ls, some false) := by
  unfold set setTry
  cases hT : effHasTTL (mergeConfig g lc) with
  | some t =>
    cases hE : (mergeConfig g lc).encrypt
    · simp [hT, hE, jsonOf, jsonOfFields, hv]
    · simp [hT, hE, obfusEncrypt, hv]
  | none =>
    cases hE : (mergeConfig g lc).encrypt
    · simp [hT, hE, hv]
    · simp [hT, hE, obfusEncrypt, hv]

/-- `set` without an effective TTL and without obfuscation stores exactly
the serialized value and returns undefined. -/
theorem set_plain (g : Config) (now : Int) (ls : LS) (key : String)
    (value : JSVal) (j : JVal) (lc : LocalConfig)
    (ht : effHasTTL (mergeConfig g lc) = none)
    (he : (mergeConfig g lc).encrypt = false)
    (hv : jsonOf value = .ok (some j)) :
    set g now ls key value lc =
      ({ ls with store := storePut ls.store key (encJ j) }, none) := by
  unfold set setTry
  simp [ht, he, hv]

/-- `get` without obfuscation on a stored serialized value that is not a
TTL envelope returns the parsed value unchanged. -/
theorem get_plain (g : Config) (now : Int) (ls : LS) (key : String)
    (lc : LocalConfig) (j : JVal)
    (hstore : storeGet ls.store key = some (encJ j))
    (he : (mergeConfig g lc).encrypt = false)
    (hd : (mergeConfig g lc).decrypt = false)
    (hj : isEnvelope j = false) :
    get g now ls key lc = .ok (some j, ls) := by
  have hp : plainDecrypt (mergeConfig g lc) j = j := by
    unfold plainDecrypt
    rw [he, hd]
    simp
  unfold get
  rw [hstore]
  cases j with
  | obj fs =>
    have hfs : hasApx fs = false := by simpa [isEnvelope] using hj
    simp [encJ_ne_nil, decode_encJ, hfs, hp]
  | null => simp [encJ_ne_nil, decode_encJ, hp]
  | bool b => simp [encJ_ne_nil, decode_encJ, hp]
  | num i => simp [encJ_ne_nil, decode_encJ, hp]
  | str s => simp [encJ_ne_nil, decode_encJ, hp]
  | arr xs => simp [encJ_ne_nil, decode_encJ, hp]

/-- A present property witnesses the `in` test. -/
theorem any_of_objGet (fs : List (JStr × JVal)) (k : JStr) (p : JVal)
    (h : objGet fs k = some p) : (fs.any fun f => f.1 = k) = true := by
  induction fs with
  | nil => simp [objGet] at h
  | cons f fs ih =>
    obtain ⟨k0, v0⟩ := f
    by_cases h0 : k0 = k
    · simp [h0]
    · simp only [objGet, if_neg h0] at h
      simp [List.any_cons, ih h]

theorem hasApx_of_objGet (fs : List (JStr × JVal)) (p : JVal)
    (h : objGet fs apx = some p) : hasApx fs = true :=
  any_of_objGet fs apx p h

/-- With neither `encrypt` nor `decrypt` in effect the envelope payload is
left as stored. -/
theorem envDecrypt_id (e : EffConfig) (fs : List (JStr × JVal))
    (he : e.encrypt = false) (hd : e.decrypt = false) :
    envDecrypt e fs = fs := by
  simp [envDecrypt, he, hd]

/-- The envelope path of `get`, for any configuration: decrypt-or-keep the
payload field, then evict on expiry or return the payload. -/
theorem get_envelope (g : Config) (now : Int) (ls : LS) (key : String)
    (lc : LocalConfig) (fs : List (JStr × JVal))
    (hstore : storeGet ls.store key = some (encJ (.obj fs)))
    (hapx : hasApx fs = true) :
    get g now ls key lc =
      (if jsGt now (objGet (envDecrypt (mergeConfig g lc) fs) ttlK) then
        .ok (none, { ls with store := storeRemove ls.store key })
      else .ok (objGet (envDecrypt (mergeConfig g lc) fs) apx, ls)) := by
  unfold get
  rw [hstore]
  simp [encJ_ne_nil, decode_encJ, hapx]

/-! ## Claim theorems -/

/-- Claim C2: in the configuration merge shared by `set` and `get`
(`mergeConfig`), an explicit `false` for `encrypt` and an explicit `null`
for `ttl` disable the process default; an omitted field falls back to the
process default; and any other override value (a boolean for `encrypt`, a
positive number of seconds for `ttl`, the domain of the data model) wins
outright over the default. -/
theorem claim2 (g : Config) (n : Int) (b : Bool) (hn : 0 < n) :
    (mergeConfig g { ttl := .null }).ttl = none ∧
    (mergeConfig g { ttl := .omitted }).ttl = g.ttl ∧
    (mergeConfig g { ttl := .num n }).ttl = some n ∧
    (mergeConfig g { encrypt := some false }).encrypt = false ∧
    (mergeConfig g { encrypt := none }).encrypt = g.encrypt ∧
    (mergeConfig g { encrypt := some b }).encrypt = b := by
  refine ⟨rfl, rfl, ?_, rfl, rfl, rfl⟩
  simp [mergeConfig, show n ≠ 0 by omega]

theorem claim2_witness :
    0 < (5 : Int) ∧
      ((mergeConfig { ttl := some 9 } { ttl := .null }).ttl = none ∧
       (mergeConfig { ttl := some 9 } { ttl := .omitted }).ttl = some 9 ∧
       (mergeConfig { ttl := some 9 } { ttl := .num 5 }).ttl = some 5 ∧
       (mergeConfig { ttl := some 9 } { encrypt := some false }).encrypt = false ∧
       (mergeConfig { ttl := some 9 } { encrypt := none }).encrypt = false ∧
       (mergeConfig { ttl := some 9 } { encrypt := some true }).encrypt = true) :=
  ⟨by norm_num, claim2 { ttl := some 9 } 5 true (by norm_num)⟩

/-- Claim C5: when serialization of the value throws (the model's
`circular` class), `set` returns `false` and the backing store — indeed
the whole state — is unchanged: no partial entry is persisted. -/
theorem claim5 (g : Config) (now : Int) (ls : LS) (key : String)
    (value : JSVal) (lc : LocalConfig) (hv : jsonOf value = .error ()) :
    set g now ls key value lc = (ls, some false) :=
  set_error g now ls key value lc hv

/-- Claim C3 as frozen is false on the code: a serializable object value
that itself carries the NUL marker key does not round-trip through
`set`/`get` under the default configuration — `get` misreads it as a TTL
envelope and returns only the marker field, not the round trip of the
stored object. -/
theorem claim3_counterexample :
    jsonOf (.obj [(apx, JSVal.num 1)]) =
      .ok (some (.obj [(apx, JVal.num 1)])) ∧
    get {} 0 (set {} 0 ⟨[], []⟩ "k" (.obj [(apx, JSVal.num 1)]) {}).1 "k" {} =
      .ok (some (.num 1),
        (set {} 0 ⟨[], []⟩ "k" (.obj [(apx, JSVal.num 1)]) {}).1) ∧
    JVal.num 1 ≠ .obj [(apx, JVal.num 1)] := by
  have hv : jsonOf (JSVal.obj [(apx, JSVal.num 1)]) =
      .ok (some (.obj [(apx, JVal.num 1)])) := by
    simp [jsonOf, jsonOfFields]
  refine ⟨hv, ?_, by simp⟩
  have hset := set_plain {} 0 ⟨[], []⟩ "k" _ _ {} rfl rfl hv
  rw [hset]
  rw [get_envelope {} 0 _ "k" {} [(apx, JVal.num 1)]
    (storeGet_storePut_self _ _ _) (by rfl)]
  rw [envDecrypt_id _ _ rfl rfl]
  simp [objGet, jsGt, ttlK, apx]

/-- Claim C3 (amended): for every key and serializable value whose
serialized round trip is not an object carrying the NUL marker key,
`get` after `set` with no TTL and the default configuration returns a
value equal to the value's round trip through the text codec; in that
round trip undefined-valued and function-valued fields are dropped and
null-valued fields are preserved.  (The marker-key proviso is forced by
`claim3_counterexample`.) -/
theorem claim3 (now now2 : Int) (ls : LS) (key : String) (value : JSVal)
    (j : JVal) (hv : jsonOf value = .ok (some j))
    (hj : isEnvelope j = false) :
    get {} now2 (set {} now ls key value {}).1 key {} =
      .ok (some j, (set {} now ls key value {}).1) ∧
    (∀ (nm : JStr) (fs : List (JStr × JSVal)),
      jsonOfFields ((nm, .undef) :: fs) = jsonOfFields fs) ∧
    (∀ (nm src : JStr) (fs : List (JStr × JSVal)),
      jsonOfFields ((nm, .func src) :: fs) = jsonOfFields fs) ∧
    (∀ (nm : JStr) (fs : List (JStr × JSVal)),
      jsonOfFields ((nm, .null) :: fs) =
        Except.map (fun gs => (nm, JVal.null) :: gs) (jsonOfFields fs)) := by
  refine ⟨?_, ?_, ?_, ?_⟩
  · have hset := set_plain {} now ls key value j {} rfl rfl hv
    rw [hset]
    exact get_plain {} now2 _ key {} j (storeGet_storePut_self _ _ _)
      rfl rfl hj
  · intro nm fs
    cases h : jsonOfFields fs <;> simp [jsonOfFields, jsonOf, h]
  · intro nm src fs
    cases h : jsonOfFields fs <;> simp [jsonOfFields, jsonOf, h]
  · intro nm fs
    cases h : jsonOfFields fs <;> simp [jsonOfFields, jsonOf, h, Except.map]

theorem claim3_witness :
    (jsonOf (JSVal.obj [([97], .undef), ([98], .func [99]), ([99], .null)]) =
      .ok (some (.obj [([99], JVal.null)])) ∧
     isEnvelope (.obj [([99], JVal.null)]) = false) ∧
    get {} 7 (set {} 3 ⟨[], []⟩ "k"
        (JSVal.obj [([97], .undef), ([98], .func [99]), ([99], .null)]) {}).1
        "k" {} =
      .ok (some (.obj [([99], JVal.null)]),
        (set {} 3 ⟨[], []⟩ "k"
          (JSVal.obj [([97], .undef), ([98], .func [99]), ([99], .null)]) {}).1) := by
  have hv : jsonOf
      (JSVal.obj [([97], .undef), ([98], .func [99]), ([99], .null)]) =
      .ok (some (.obj [([99], JVal.null)])) := by
    simp [jsonOf, jsonOfFields]
  exact ⟨⟨hv, by decide⟩,
    (claim3 3 7 ⟨[], []⟩ "k" _ _ hv (by decide)).1⟩

/-- Claim C6: on a key holding a TTL envelope (read without obfuscation in
effect), an expired envelope is synchronously removed from the backing
store with `null` returned, and an unexpired envelope yields the payload
unwrapped from under the marker key. -/
theorem claim6 (g : Config) (now : Int) (ls : LS) (key : String)
    (lc : LocalConfig) (fs : List (JStr × JVal)) (T : Int) (p : JVal)
    (hstore : storeGet ls.store key = some (encJ (.obj fs)))
    (hp : objGet fs apx = some p)
    (hT : objGet fs ttlK = some (.num T))
    (he : (mergeConfig g lc).encrypt = false)
    (hd : (mergeConfig g lc).decrypt = false) :
    (now > T →
      get g now ls key lc =
        .ok (none, { ls with store := storeRemove ls.store key })) ∧
    (¬now > T → get g now ls key lc = .ok (some p, ls)) := by
  have hapx : hasApx fs = true := hasApx_of_objGet fs p hp
  rw [get_envelope g now ls key lc fs hstore hapx,
    envDecrypt_id _ _ he hd]
  constructor
  · intro h
    simp [hT, jsGt, h]
  · intro h
    simp [hT, jsGt, h, hp]

theorem claim6_witness :
    get {} 200 ⟨[("k", encJ (.obj [(apx, .num 7), (ttlK, .num 100)]))], []⟩
        "k" {} =
      .ok (none, ⟨[], []⟩) ∧
    get {} 50 ⟨[("k", encJ (.obj [(apx, .num 7), (ttlK, .num 100)]))], []⟩
        "k" {} =
      .ok (some (.num 7),
        ⟨[("k", encJ (.obj [(apx, .num 7), (ttlK, .num 100)]))], []⟩) := by
  constructor
  · have h := (claim6 {} 200
      ⟨[("k", encJ (.obj [(apx, .num 7), (ttlK, .num 100)]))], []⟩ "k" {}
      [(apx, .num 7), (ttlK, .num 100)] 100 (.num 7)
      (by simp [storeGet]) rfl rfl rfl rfl).1 (by norm_num)
    simpa [storeRemove] using h
  · exact (claim6 {} 50
      ⟨[("k", encJ (.obj [(apx, .num 7), (ttlK, .num 100)]))], []⟩ "k" {}
      [(apx, .num 7), (ttlK, .num 100)] 100 (.num 7)
      (by simp [storeGet]) rfl rfl rfl rfl).2 (by norm_num)

theorem claim5_witness :
    jsonOf (.obj [(cbK, JSVal.circular)]) = .error () ∧
      set {} 0 ⟨[("a", [2])], []⟩ "k" (.obj [(cbK, JSVal.circular)]) {} =
        (⟨[("a", [2])], []⟩, some false) := by
  have hv : jsonOf (JSVal.obj [(cbK, JSVal.circular)]) = .error () := by
    simp [jsonOf, jsonOfFields]
  exact ⟨hv, claim5 {} 0 ⟨[("a", [2])], []⟩ "k" _ {} hv⟩

/-- Every branch of `get` past a successful parse returns `.ok`. -/
theorem get_isOk (g : Config) (now : Int) (ls : LS) (key : String)
    (lc : LocalConfig) (u : JStr) (item : JVal)
    (hg : storeGet ls.store key = some u) (hu : u ≠ [])
    (hd : decode u = some item) :
    ∃ r, get g now ls key lc = .ok r := by
  unfold get
  rw [hg]
  simp only [hu, if_neg, hd]
  cases item with
  | obj fs =>
    by_cases ha : hasApx fs = true
    · by_cases hj :
        jsGt now (objGet (envDecrypt (mergeConfig g lc) fs) ttlK) = true
      · exact ⟨(none, { ls with store := storeRemove ls.store key }),
          by simp [ha, hj]⟩
      · simp only [Bool.not_eq_true] at hj
        exact ⟨(objGet (envDecrypt (mergeConfig g lc) fs) apx, ls),
          by simp [ha, hj]⟩
    · simp only [Bool.not_eq_true] at ha
      exact ⟨(some (plainDecrypt (mergeConfig g lc) (.obj fs)), ls),
        by simp [ha]⟩
  | null => exact ⟨(some (plainDecrypt (mergeConfig g lc) .null), ls), by simp⟩
  | bool b =>
    exact ⟨(some (plainDecrypt (mergeConfig g lc) (.bool b)), ls), by simp⟩
  | num i =>
    exact ⟨(some (plainDecrypt (mergeConfig g lc) (.num i)), ls), by simp⟩
  | str s =>
    exact ⟨(some (plainDecrypt (mergeConfig g lc) (.str s)), ls), by simp⟩
  | arr xs =>
    exact ⟨(some (plainDecrypt (mergeConfig g lc) (.arr xs)), ls), by simp⟩

/-- Claim C1 as frozen is false on the code: `JSON.parse(str)` in `get`
is not guarded by a `try`, so `get` on a stored text that is not valid
serialized data raises to the caller instead of returning the opaque
value or null. -/
theorem claim1_counterexample :
    get {} 0 ⟨[("k", [104, 105])], []⟩ "k" {} = .error () := rfl

/-- Claim C1 (amended): `set` resolves failure to `false` and `flush`
silently skips entries whose stored text fails to parse, but `get` does
raise to the caller when the stored text under the requested key is
non-empty and not valid serialized data; for every other store content
`get` returns a value or null.  (The raise forcing the amendment is
exhibited by `claim1_counterexample`.) -/
theorem claim1 (g : Config) (now : Int) (ls : LS) (key : String)
    (lc : LocalConfig) (force : Bool)
    (hnd : (ls.store.map Prod.fst).Nodup) :
    (∀ u, storeGet ls.store key = some u → u ≠ [] → decode u = none →
      get g now ls key lc = .error ()) ∧
    ((∀ u, storeGet ls.store key = some u → u ≠ [] → decode u ≠ none) →
      ∃ r, get g now ls key lc = .ok r) ∧
    (∀ k u, storeGet ls.store k = some u → decode u = none →
      storeGet (flush now force ls).store k = some u) := by
  refine ⟨?_, ?_, ?_⟩
  · intro u h1 h2 h3
    unfold get
    rw [h1]
    simp [h2, h3]
  · intro hok
    cases hg : storeGet ls.store key with
    | none =>
      refine ⟨(none, ls), ?_⟩
      unfold get
      rw [hg]
    | some u =>
      by_cases hu : u = []
      · refine ⟨(none, ls), ?_⟩
        unfold get
        rw [hg]
        simp [hu]
      · cases hd : decode u with
        | none => exact absurd hd (hok u hg hu)
        | some item => exact get_isOk g now ls key lc u item hg hu hd
  · intro k u h1 h2
    rw [flush_storeGet now force ls hnd k, h1]
    by_cases hu : u = [] <;> simp [keepEntry, hu, h2]

theorem claim1_witness :
    (((⟨[("k", [104, 105]), ("p", [2])], []⟩ : LS).store.map Prod.fst).Nodup ∧
      decode [104, 105] = none) ∧
    get {} 0 ⟨[("k", [104, 105]), ("p", [2])], []⟩ "k" {} = .error () ∧
    storeGet (flush 0 true ⟨[("k", [104, 105]), ("p", [2])], []⟩).store "k" =
      some [104, 105] := by
  have h := claim1 {} 0 ⟨[("k", [104, 105]), ("p", [2])], []⟩ "k" {} true
    (by decide)
  exact ⟨⟨by decide, rfl⟩, h.1 [104, 105] rfl (by decide) rfl,
    h.2.2 "k" [104, 105] rfl rfl⟩

/-- Claim C7: a forced poll (`poll(true)`, which calls `flush(true)`)
removes every entry recognized as a TTL envelope regardless of remaining
time, and leaves every entry that is not a TTL envelope — including
foreign text that fails to parse — unchanged in the store. -/
theorem claim7 (now : Int) (ls : LS)
    (hnd : (ls.store.map Prod.fst).Nodup) (k : String) (u : JStr)
    (hk : storeGet ls.store k = some u) :
    ((∃ item, decode u = some item ∧ isEnvelope item = true) →
      storeGet (poll now true ls).store k = none) ∧
    ((∀ item, decode u = some item → isEnvelope item = false) →
      storeGet (poll now true ls).store k = some u) := by
  have hflush := flush_storeGet now true { ls with timers := [] } hnd k
  constructor
  · rintro ⟨item, hd, he⟩
    have hu : ¬u = [] := by
      intro hc
      subst hc
      exact Option.noConfusion hd
    unfold poll
    rw [hflush, hk]
    simp [keepEntry, hu, hd, he]
  · intro hall
    unfold poll
    rw [hflush, hk]
    by_cases hu : u = []
    · simp [keepEntry, hu]
    · cases hd : decode u with
      | none => simp [keepEntry, hu, hd]
      | some item => simp [keepEntry, hu, hd, hall item hd]

theorem claim7_witness :
    storeGet (poll 0 true
      ⟨[("e", encJ (.obj [(apx, .num 1), (ttlK, .num 99999)])),
        ("p", encJ (.num 2)), ("r", [104])], []⟩).store "e" = none ∧
    storeGet (poll 0 true
      ⟨[("e", encJ (.obj [(apx, .num 1), (ttlK, .num 99999)])),
        ("p", encJ (.num 2)), ("r", [104])], []⟩).store "p" =
      some (encJ (.num 2)) ∧
    storeGet (poll 0 true
      ⟨[("e", encJ (.obj [(apx, .num 1), (ttlK, .num 99999)])),
        ("p", encJ (.num 2)), ("r", [104])], []⟩).store "r" =
      some [104] := by
  refine ⟨?_, ?_, ?_⟩
  · exact (claim7 0
      ⟨[("e", encJ (.obj [(apx, .num 1), (ttlK, .num 99999)])),
        ("p", encJ (.num 2)), ("r", [104])], []⟩ (by decide) "e"
      (encJ (.obj [(apx, .num 1), (ttlK, .num 99999)])) rfl).1
      ⟨.obj [(apx, .num 1), (ttlK, .num 99999)], decode_encJ _, rfl⟩
  · refine (claim7 0
      ⟨[("e", encJ (.obj [(apx, .num 1), (ttlK, .num 99999)])),
        ("p", encJ (.num 2)), ("r", [104])], []⟩ (by decide) "p"
      (encJ (.num 2)) rfl).2 ?_
    intro item h
    rw [decode_encJ] at h
    cases h
    rfl
  · refine (claim7 0
      ⟨[("e", encJ (.obj [(apx, .num 1), (ttlK, .num 99999)])),
        ("p", encJ (.num 2)), ("r", [104])], []⟩ (by decide) "r"
      [104] rfl).2 ?_
    intro item h
    simp [show (decode [104] : Option JVal) = none from rfl] at h

theorem effHasTTL_pos (e : EffConfig) (t : Int) (h : effHasTTL e = some t) :
    0 < t := by
  obtain ⟨ttlE, encE, decE, secE, cbE⟩ := e
  cases ttlE with
  | none => simp [effHasTTL] at h
  | some t0 =>
    simp only [effHasTTL] at h
    by_cases h0 : 0 < t0
    · rw [if_pos h0] at h
      cases h
      exact h0
    · rw [if_neg h0] at h
      cases h

/-- The exact text produced by `set`'s `try` body for a positive TTL:
the envelope with the payload under the marker key (shifted only when
obfuscation is on), the absolute expiry, and the callback text in the
clear. -/
theorem setTry_ttl (e : EffConfig) (now : Int) (value : JSVal)
    (j : JVal) (t : Int)
    (ht : effHasTTL e = some t)
    (hv : jsonOf value = .ok (some j)) :
    setTry e now value = .ok (encJ (.obj
      ((apx, if e.encrypt then
          JVal.str ((encJ j).map (u16add e.secret)) else j) ::
       (ttlK, JVal.num (now + t * 1000)) ::
       (match e.cb with
        | some src => [(cbK, JVal.str src)]
        | none => [])))) := by
  unfold setTry
  rw [ht]
  cases he : e.encrypt with
  | false => cases hc : e.cb <;> simp [he, hc, jsonOf, jsonOfFields, hv]
  | true =>
    cases hc : e.cb <;>
      simp [he, hc, obfusEncrypt, jsonOf, jsonOfFields, hv]

/-- Claim C4: every `set` with a positive effective TTL persists exactly
the TTL envelope: the marker key is the single NUL character and the
`ttl` field is the absolute expiry `now + ttlSeconds * 1000`; when
obfuscation is enabled, it is applied only to the payload sub-field
under the marker key — the `ttl` and `cb` fields are stored in the clear
in every case. -/
theorem claim4 (g : Config) (now : Int) (ls : LS) (key : String)
    (value : JSVal) (j : JVal) (lc : LocalConfig) (t : Int)
    (hnd : (ls.store.map Prod.fst).Nodup)
    (ht : effHasTTL (mergeConfig g lc) = some t)
    (hv : jsonOf value = .ok (some j)) :
    storeGet (set g now ls key value lc).1.store key =
      some (encJ (.obj
        ((apx, if (mergeConfig g lc).encrypt then
            JVal.str ((encJ j).map (u16add (mergeConfig g lc).secret))
          else j) ::
         (ttlK, JVal.num (now + t * 1000)) ::
         (match (mergeConfig g lc).cb with
          | some src => [(cbK, JVal.str src)]
          | none => [])))) := by
  have htpos := effHasTTL_pos _ t ht
  have hTry := setTry_ttl (mergeConfig g lc) now value j t ht hv
  unfold set
  simp only [hTry, ht]
  rw [poll]
  rw [flush_storeGet now false _
    (storePut_keys_nodup ls.store key _ hnd) key]
  rw [storeGet_storePut_self]
  have hkeep : keepEntry now false (encJ (.obj
      ((apx, if (mergeConfig g lc).encrypt then
          JVal.str ((encJ j).map (u16add (mergeConfig g lc).secret))
        else j) ::
       (ttlK, JVal.num (now + t * 1000)) ::
       (match (mergeConfig g lc).cb with
        | some src => [(cbK, JVal.str src)]
        | none => [])))) = true := by
    unfold keepEntry
    rw [if_neg (encJ_ne_nil _), decode_encJ]
    have hgt : jsGt now (some (JVal.num (now + t * 1000))) = false := by
      simp only [jsGt, decide_eq_false_iff_not]
      omega
    cases hc : (mergeConfig g lc).cb with
    | none => simp [hc, isEnvelope, hasApx, apx, flushStep.envFields,
        objGet, ttlK, hgt]
    | some src => simp [hc, isEnvelope, hasApx, apx, flushStep.envFields,
        objGet, ttlK, cbK, hgt]
  simp [hkeep]

theorem claim4_witness :
    ((([] : Store).map Prod.fst).Nodup ∧
      effHasTTL (mergeConfig {} { ttl := .num 2, encrypt := some true, cb := some [99] }) = some 2 ∧
      effHasTTL (mergeConfig {} { ttl := .num 3 }) = some 3 ∧
      jsonOf (JSVal.num 5) = .ok (some (.num 5))) ∧
    storeGet (set {} 10 ⟨[], []⟩ "k" (JSVal.num 5)
        { ttl := .num 2, encrypt := some true, cb := some [99] }).1.store "k" =
      some (encJ (.obj
        [(apx, .str ((encJ (.num 5)).map (u16add 75))),
         (ttlK, .num (10 + 2 * 1000)), (cbK, .str [99])])) ∧
    storeGet (set {} 10 ⟨[], []⟩ "k" (JSVal.num 5)
        { ttl := .num 3 }).1.store "k" =
      some (encJ (.obj
        [(apx, .num 5), (ttlK, .num (10 + 3 * 1000))])) := by
  have hv : jsonOf (JSVal.num 5) = .ok (some (.num 5)) := by simp [jsonOf]
  have h1 := claim4 {} 10 ⟨[], []⟩ "k" (JSVal.num 5) (.num 5)
    { ttl := .num 2, encrypt := some true, cb := some [99] } 2
    (by decide) rfl hv
  have h2 := claim4 {} 10 ⟨[], []⟩ "k" (JSVal.num 5) (.num 5)
    { ttl := .num 3 } 3 (by decide) rfl hv
  refine ⟨⟨by decide, rfl, rfl, hv⟩, ?_, ?_⟩
  · simpa [mergeConfig] using h1
  · simpa [mergeConfig] using h2

end LsSlim
